import Mathlib

/-!
Shallow embedding of `src/Backend/utils/parallel.py` (class `ParallelProcessor`)
from the GEO-SCOPE release server, together with theorems checking the
specification's claims about it.

The embedding covers:
* `determine_worker_count` and `create_batches` (pure helpers, lines 50-87);
* `_make_retry_async` (lines 91-129), modelled as `retryTrace`: the process
  function for one item is abstracted as `f : Nat → Except Err V`, giving the
  outcome of each successive attempt, and the tenacity wrapper
  (`stop_after_attempt(max_retries + 1)`, `reraise=True`) is a fuelled loop
  that also records which attempts it performed;
* `_async_process_all` (lines 163-247), modelled as a small-step interleaving
  machine: each item's task `one(idx, item)` moves through the program points
  gate (before the optional rate limiter), ready (waiting on the semaphore),
  running (inside the retry-wrapped call, holding a semaphore permit) and
  done (results slot written, completion counter bumped).  A schedule is an
  arbitrary list of task indices; a step on a non-enabled task is a no-op, so
  quantifying over all schedules covers every interleaving of the event loop;
* `process_batches` / `parallel_process` (lines 251-344): flattening of the
  batches, the `kwargs.pop("rate_limit_per_sec", 0)` handling and the
  construction of the limiter.
-/

namespace GeoScope

/-- Python `os.cpu_count() or 4`: `os.cpu_count()` may return `None`, and both
`None` and `0` are falsy, in which case the fallback `4` is used. -/
def cpuOr4 : Option Nat → Nat
  | none => 4
  | some c => if c = 0 then 4 else c

/-- `ParallelProcessor.determine_worker_count` (parallel.py lines 50-63):
`default_workers = min((os.cpu_count() or 4) * 2, 128)`;
returns `default_workers if workers is None else max(1, int(workers))`.
The CPU count is passed explicitly as a parameter of the model. -/
def determine_worker_count (cpu_count : Option Nat) (workers : Option Int) : Int :=
  let default_workers : Int := min ((cpuOr4 cpu_count : Int) * 2) 128
  match workers with
  | none => default_workers
  | some w => max 1 w

/-- Fuelled helper for `pyRange`: with `step ≥ 1`, the loop makes at most
`stop - start` iterations, so that much fuel suffices. -/
def pyRangeAux (stop step : Nat) : Nat → Nat → List Nat
  | _, 0 => []
  | start, fuel + 1 =>
    if start < stop then start :: pyRangeAux stop step (start + step) fuel else []

/-- Python `range(start, stop, step)` for non-negative arguments (used by
`create_batches` as `range(0, total, batch_size)`).  For `step = 0` Python
raises `ValueError`; the model returns `[]` there, and every theorem that
touches this case assumes a positive step. -/
def pyRange (start stop step : Nat) : List Nat :=
  if 0 < step then pyRangeAux stop step start (stop - start) else []

/-- The batch size actually used by `create_batches` (parallel.py lines 79-83):
`if total > 1000: batch_size = max(batch_size, total // 50)`
`elif total < 50: batch_size = max(1, max(1, total // 4))`. -/
def effectiveBatchSize (total batch_size : Nat) : Nat :=
  if total > 1000 then max batch_size (total / 50)
  else if total < 50 then max 1 (max 1 (total / 4))
  else batch_size

/-- `ParallelProcessor.create_batches` (parallel.py lines 65-87): returns
`[(list(range(i, min(i + batch_size, total))), items[i:i + batch_size]) for i
in range(0, total, batch_size)]` after the dynamic batch-size adjustment.
`items[i : i + bs]` is `(items.drop i).take bs`, and
`list(range(i, min(i + bs, total)))` is `List.range' i (min (i + bs) total - i)`. -/
def create_batches {α : Type} (items : List α) (batch_size : Nat) :
    List (List Nat × List α) :=
  let total := items.length
  let bs := effectiveBatchSize total batch_size
  (pyRange 0 total bs).map
    (fun i => (List.range' i (min (i + bs) total - i), (items.drop i).take bs))

/-- The flattening loop at the top of `process_batches` (parallel.py lines
280-282): `for _, batch in batches: flat_items.extend(batch)`. -/
def flattenBatches {α : Type} (batches : List (List Nat × List α)) : List α :=
  (batches.map Prod.snd).flatten

/-- An exception raised while processing one item: either an ordinary exception
raised by the process function (identified by a code) or `asyncio.TimeoutError`
raised by `asyncio.wait_for` when the per-item timeout elapses.  Both derive
from `Exception` in Python and are caught by the same handler in `one`. -/
inductive Err : Type
  | exc (code : Nat)
  | timeout
deriving DecidableEq, Repr

/-- The retry loop produced by `_make_retry_async` (parallel.py lines 91-129):
tenacity with `stop=stop_after_attempt(max_retries + 1)`, `reraise=True` and
`retry=retry_if_exception_type(Exception)`.  The behaviour of the process
function on one item is `f : Nat → Except Err V`, mapping the attempt number
(starting at 0) to that attempt's outcome.  `retryTrace f start fuel` performs
attempt `start` and up to `fuel` further attempts; it returns the final outcome
together with the list of attempt numbers actually performed.  With `fuel = 0`
remaining, the outcome of the last attempt — in particular its exception — is
returned as is (`reraise=True`). -/
def retryTrace {V : Type} (f : Nat → Except Err V) : Nat → Nat → Except Err V × List Nat
  | start, 0 => (f start, [start])
  | start, fuel + 1 =>
    match f start with
    | .ok v => (.ok v, [start])
    | .error _ =>
      let t := retryTrace f (start + 1) fuel
      (t.1, start :: t.2)

/-- The wrapped call made by `one` (parallel.py lines 222-225):
`await asyncio.wait_for(safe_call(item, **kwargs), timeout=timeout)` when a
timeout is configured, else `await safe_call(item, **kwargs)`.  The boolean
`tmo` says whether this item's call exceeded the per-item timeout, in which
case the result is `asyncio.TimeoutError`; otherwise the result is whatever
the retry wrapper `safe_call` produced. -/
def itemOutcome {V : Type} (f : Nat → Except Err V) (max_retries : Nat) (tmo : Bool) :
    Except Err V :=
  if tmo then .error .timeout else (retryTrace f 0 max_retries).1

/-- The value stored into `results[idx]` by `one` (parallel.py lines 221-229):
the call's result on success, `None` when the handler caught an exception.
Since a Python process function may itself return `None`, the success value
already has type `Option V`. -/
def finishVal {V : Type} (r : Except Err (Option V)) : Option V :=
  match r with
  | .ok v => v
  | .error _ => none

/-- Program point of one item's task `one(idx, item)` (parallel.py lines
215-234): `gate` = before the optional `async with limiter` block; `ready` =
waiting to enter `async with sem`; `running` = holding a semaphore permit,
inside the retry-wrapped processing call; `done` = slot written, counter
bumped, permit released. -/
inductive PC : Type
  | gate
  | ready
  | running
  | done
deriving DecidableEq, Repr

/-- The condition under which `one` pushes a progress update (parallel.py line
233): `completed % 10 == 0 or completed == total_items`. -/
def pushCond (n c : Nat) : Bool := c % 10 == 0 || c == n

/-- State of `_async_process_all` over `n` items: per-task program points, the
semaphore's free-permit count, the `results` list, the `completed` counter, the
log of `self.error(...)` calls for failed items, the progress values pushed to
the observer, and a log of every write to a result slot. -/
structure MState (V : Type) : Type where
  pc : List PC
  sem : Nat
  results : List (Option V)
  completed : Nat
  errLog : List (Nat × Err)
  updates : List Nat
  writes : List (Nat × Option V)
deriving Repr

/-- One scheduling step of the event loop, running task `i` until its next
suspension point.  `outcome i` is the overall result of item `i`'s retry-wrapped
call (built by `itemOutcome`).  A task at `gate` passes through the rate
limiter; a task at `ready` enters `async with sem` when a permit is free
(`sem` decremented) and otherwise stays blocked; a task at `running` finishes:
it writes its slot (success value, or `None` after the `except` handler, which
also logs the error), then in the `finally` block increments `completed` under
the lock and pushes a progress update when `completed % 10 == 0` or
`completed == n`, and releases its permit on leaving `async with sem`.
Finished tasks and out-of-range indices do nothing. -/
def step {V : Type} (n : Nat) (outcome : Nat → Except Err (Option V))
    (s : MState V) (i : Nat) : MState V :=
  match s.pc.getD i PC.done with
  | PC.gate => { s with pc := s.pc.set i PC.ready }
  | PC.ready =>
    if s.sem = 0 then s
    else { s with pc := s.pc.set i PC.running, sem := s.sem - 1 }
  | PC.running =>
    let v := finishVal (outcome i)
    let c := s.completed + 1
    { pc := s.pc.set i PC.done
      sem := s.sem + 1
      results := s.results.set i v
      completed := c
      errLog := s.errLog ++ (match outcome i with
        | .error e => [(i, e)]
        | .ok _ => [])
      updates := s.updates ++ (if pushCond n c then [c] else [])
      writes := s.writes ++ [(i, v)] }
  | PC.done => s

/-- Initial state of `_async_process_all` (parallel.py lines 200-236): all `n`
tasks created and not yet started, `sem = asyncio.Semaphore(workers)` full,
`results = [None] * total_items`, `completed = 0`, no logs yet. -/
def mkState (n k : Nat) {V : Type} : MState V :=
  { pc := List.replicate n PC.gate
    sem := k
    results := List.replicate n none
    completed := 0
    errLog := []
    updates := []
    writes := [] }

/-- Run the machine under a schedule: an arbitrary sequence of task indices,
each step running that task up to its next suspension point.  Quantifying over
all schedules covers every interleaving the event loop may produce. -/
def run {V : Type} (n k : Nat) (outcome : Nat → Except Err (Option V))
    (sched : List Nat) : MState V :=
  sched.foldl (step n outcome) (mkState n k)

/-- A schedule is complete for a state when every task has reached `done`;
`asyncio.gather` returns exactly when this holds. -/
def AllDone {V : Type} (n : Nat) (s : MState V) : Prop :=
  ∀ i, i < n → s.pc.getD i PC.done = PC.done

instance {V : Type} (n : Nat) (s : MState V) : Decidable (AllDone n s) :=
  inferInstanceAs (Decidable (∀ i, i < n → _ = _))

/-- A keyword-argument value, as far as `rate_limit_per_sec` handling is
concerned: either Python `None` or a number (modelled as a rational, standing
for a Python float). -/
abbrev PyVal : Type := Option Rat

/-- The keyword-argument dictionary passed through `**kwargs`: an association
list (Python dicts have unique keys). -/
abbrev Kwargs : Type := List (String × PyVal)

/-- The key `process_batches` pops before dispatching. -/
def rateKey : String := "rate_limit_per_sec"

/-- `float(kwargs.pop("rate_limit_per_sec", 0) or 0)` (parallel.py line 284):
a missing key defaults to `0`; Python `or` replaces the falsy values `None`
and `0` by `0`; any other number passes through `float` unchanged. -/
def rateLimitOf (kws : Kwargs) : Rat :=
  match kws.lookup rateKey with
  | none => 0
  | some none => 0
  | some (some q) => if q = 0 then 0 else q

/-- The kwargs left after `kwargs.pop("rate_limit_per_sec", 0)`: the binding of
that key (unique in a dict) is removed, every other binding is untouched. -/
def remainingKwargs (kws : Kwargs) : Kwargs :=
  kws.filter (fun p => p.1 ≠ rateKey)

/-- `AsyncLimiter(rate_limit_per_sec, 1) if rate_limit_per_sec > 0 else None`
(parallel.py line 210): whether a rate limiter is constructed at all. -/
def limiterMade (rate_limit_per_sec : Rat) : Bool :=
  0 < rate_limit_per_sec

/-- Model of `process_batches` (parallel.py lines 251-298) composed with
`_async_process_all`: the batches are flattened into `flat_items`,
`rate_limit_per_sec` is popped from the kwargs, and the machine runs on the
flat items with `workers = k`.  The process function `procF` takes the item,
the kwargs it was invoked with, and the attempt number; `safe_call` passes the
same kwargs to every attempt (parallel.py lines 114-115 and 125-127), and
`one` passes `**kwargs` into `safe_call` (lines 223-225).  `tmo i` says
whether item `i`'s wrapped call hits the per-item timeout. -/
def process_batches {Item V : Type} [Inhabited Item]
    (batches : List (List Nat × List Item)) (k : Nat)
    (procF : Item → Kwargs → Nat → Except Err (Option V)) (max_retries : Nat)
    (tmo : Nat → Bool) (kws : Kwargs) (sched : List Nat) : MState V :=
  let flat_items := flattenBatches batches
  let kws1 := remainingKwargs kws
  run flat_items.length k
    (fun i => itemOutcome (procF (flat_items.getD i default) kws1) max_retries (tmo i))
    sched

/-- Every process-function invocation that `process_batches` performs under a
completed run, as `(item index, attempt number, kwargs passed)` triples: item
`i` performs exactly the attempts recorded by its retry trace, each invoked
with the kwargs left after the pop.  (For an item whose wrapped call times
out, the attempts actually started before cancellation are a prefix of the
trace; they receive the same kwargs, so they are omitted here.) -/
def callLog {Item V : Type} [Inhabited Item]
    (batches : List (List Nat × List Item)) (procF : Item → Kwargs → Nat → Except Err (Option V))
    (max_retries : Nat) (tmo : Nat → Bool) (kws : Kwargs) :
    List (Nat × Nat × Kwargs) :=
  let flat_items := flattenBatches batches
  let kws1 := remainingKwargs kws
  (List.range flat_items.length).flatMap (fun i =>
    if tmo i then []
    else (retryTrace (procF (flat_items.getD i default) kws1) 0 max_retries).2.map
      (fun a => (i, a, kws1)))

/-- Model of `parallel_process` (parallel.py lines 300-344): determine the
worker count, create the batches, and hand off to `process_batches`. -/
def parallel_process {Item V : Type} [Inhabited Item]
    (items : List Item) (cpu_count : Option Nat) (workers : Option Int)
    (batch_size : Nat) (procF : Item → Kwargs → Nat → Except Err (Option V))
    (max_retries : Nat) (tmo : Nat → Bool) (kws : Kwargs) (sched : List Nat) :
    MState V :=
  process_batches (create_batches items batch_size)
    (determine_worker_count cpu_count workers).toNat procF max_retries tmo kws sched

/-- Whether an `Except` is an error (an exception that reached `one`'s handler). -/
def isErr {E V : Type} : Except E V → Bool
  | .error _ => true
  | .ok _ => false

section ListHelpers

variable {α : Type}

theorem count_set_balance [DecidableEq α] (l : List α) (i : Nat) (a : α)
    (h : i < l.length) (b : α) :
    (l.set i a).count b + (if l[i] = b then 1 else 0)
      = l.count b + (if a = b then 1 else 0) := by
  rw [List.set_eq_take_cons_drop a h]
  conv_rhs => rw [← List.take_append_drop i l, List.drop_eq_getElem_cons h]
  rw [List.count_append, List.count_append, List.count_cons, List.count_cons]
  by_cases h1 : a = b <;> by_cases h2 : l[i] = b <;> simp [h1, h2] <;> omega

theorem getD_set_self (l : List α) (i : Nat) (a d : α) (h : i < l.length) :
    (l.set i a).getD i d = a := by
  rw [List.getD_eq_getElem _ _ (by simpa)]
  simp [h]

theorem getD_set_ne (l : List α) {i j : Nat} (a d : α) (h : i ≠ j) :
    (l.set i a).getD j d = l.getD j d := by
  simp [List.getD_eq_getElem?_getD, List.getElem?_set_ne h]

theorem getD_of_length_le (l : List α) (i : Nat) (d : α) (h : l.length ≤ i) :
    l.getD i d = d := by
  simp [List.getD_eq_getElem?_getD, List.getElem?_eq_none (by simpa)]

theorem getD_replicate_of_lt (n i : Nat) (a d : α) (h : i < n) :
    (List.replicate n a).getD i d = a := by
  rw [List.getD_eq_getElem _ _ (by simpa)]
  simp

theorem countP_append_singleton (l : List α) (x : α) (p : α → Bool) :
    (l ++ [x]).countP p = l.countP p + (if p x then 1 else 0) := by
  simp [List.countP_append, List.countP_cons]

end ListHelpers

/-- The machine invariant for `_async_process_all` with `n` items and
`workers = k`, maintained by every scheduling step:
* lengths of `pc` and `results` stay `n`;
* free permits plus tasks inside `async with sem` equal `k` (the semaphore
  balance);
* `completed` counts exactly the tasks that reached a terminal state;
* a slot holds its item's outcome once that item is done, and `None`
  (its initial value) before;
* each slot has been written exactly once when its task is done and never
  before, and only its own task writes it, storing that item's outcome;
* the error log has exactly one entry for each finished item whose call
  raised, recording the item's index and the final exception;
* the pushed progress values are exactly the multiples of 10 (and the final
  count `n`) among `1..completed`, in increasing order. -/
structure Inv {V : Type} (n k : Nat) (outcome : Nat → Except Err (Option V))
    (s : MState V) : Prop where
  lenPC : s.pc.length = n
  lenRes : s.results.length = n
  semInv : s.sem + s.pc.count PC.running = k
  compInv : s.completed = s.pc.count PC.done
  slotInv : ∀ i, i < n →
    s.results.getD i none
      = (if s.pc.getD i PC.done = PC.done then finishVal (outcome i) else none)
  writesCount : ∀ i,
    s.writes.countP (fun w => w.1 == i)
      = (if i < n ∧ s.pc.getD i PC.done = PC.done then 1 else 0)
  writesVal : ∀ w ∈ s.writes, w.2 = finishVal (outcome w.1)
  errCount : ∀ i,
    s.errLog.countP (fun p => p.1 == i)
      = (if i < n ∧ s.pc.getD i PC.done = PC.done ∧ isErr (outcome i) then 1 else 0)
  errVal : ∀ p ∈ s.errLog, outcome p.1 = Except.error p.2
  updInv : s.updates = (List.range' 1 s.completed).filter (pushCond n)

theorem step_done {V : Type} (n : Nat) (outcome : Nat → Except Err (Option V))
    (s : MState V) (i : Nat) (h : s.pc.getD i PC.done = PC.done) :
    step n outcome s i = s := by
  unfold step
  rw [h]

theorem step_gate {V : Type} (n : Nat) (outcome : Nat → Except Err (Option V))
    (s : MState V) (i : Nat) (h : s.pc.getD i PC.done = PC.gate) :
    step n outcome s i = { s with pc := s.pc.set i PC.ready } := by
  unfold step
  rw [h]

theorem step_ready_blocked {V : Type} (n : Nat) (outcome : Nat → Except Err (Option V))
    (s : MState V) (i : Nat) (h : s.pc.getD i PC.done = PC.ready) (h0 : s.sem = 0) :
    step n outcome s i = s := by
  unfold step
  rw [h]
  exact if_pos h0

theorem step_ready_go {V : Type} (n : Nat) (outcome : Nat → Except Err (Option V))
    (s : MState V) (i : Nat) (h : s.pc.getD i PC.done = PC.ready) (h0 : ¬s.sem = 0) :
    step n outcome s i
      = { s with pc := s.pc.set i PC.running, sem := s.sem - 1 } := by
  unfold step
  rw [h]
  exact if_neg h0

theorem step_running {V : Type} (n : Nat) (outcome : Nat → Except Err (Option V))
    (s : MState V) (i : Nat) (h : s.pc.getD i PC.done = PC.running) :
    step n outcome s i
      = { pc := s.pc.set i PC.done
          sem := s.sem + 1
          results := s.results.set i (finishVal (outcome i))
          completed := s.completed + 1
          errLog := s.errLog ++ (match outcome i with
            | .error e => [(i, e)]
            | .ok _ => [])
          updates := s.updates ++
            (if pushCond n (s.completed + 1) then [s.completed + 1] else [])
          writes := s.writes ++ [(i, finishVal (outcome i))] } := by
  unfold step
  rw [h]

theorem inv_mkState {V : Type} (n k : Nat) (outcome : Nat → Except Err (Option V)) :
    Inv n k outcome (mkState n k) := by
  refine ⟨?_, ?_, ?_, ?_, ?_, ?_, ?_, ?_, ?_, ?_⟩
  · simp [mkState]
  · simp [mkState]
  · simp [mkState, List.count_replicate]
  · simp [mkState, List.count_replicate]
  · intro i hi
    simp [mkState, List.getD_eq_getElem?_getD, List.getElem?_replicate, hi]
  · intro i
    by_cases hi : i < n
    · simp [mkState, List.getD_eq_getElem?_getD, List.getElem?_replicate, hi]
    · simp [mkState, hi]
  · simp [mkState]
  · intro i
    by_cases hi : i < n
    · simp [mkState, List.getD_eq_getElem?_getD, List.getElem?_replicate, hi]
    · simp [mkState, hi]
  · simp [mkState]
  · simp [mkState]

theorem inv_step {V : Type} (n k : Nat) (outcome : Nat → Except Err (Option V))
    (s : MState V) (hs : Inv n k outcome s) (i : Nat) :
    Inv n k outcome (step n outcome s i) := by
  cases hpc : s.pc.getD i PC.done with
  | done =>
    rw [step_done n outcome s i hpc]
    exact hs
  | gate =>
    have hi : i < s.pc.length := by
      by_contra hge
      rw [getD_of_length_le _ _ _ (Nat.le_of_not_lt hge)] at hpc
      simp at hpc
    have hin : i < n := hs.lenPC ▸ hi
    have hget : s.pc[i] = PC.gate := by
      rw [← List.getD_eq_getElem s.pc PC.done hi]
      exact hpc
    rw [step_gate n outcome s i hpc]
    refine ⟨?_, ?_, ?_, ?_, ?_, ?_, ?_, ?_, ?_, ?_⟩
    · simpa using hs.lenPC
    · exact hs.lenRes
    · have hb := count_set_balance s.pc i PC.ready hi PC.running
      rw [hget] at hb
      simp at hb
      rw [hb]
      exact hs.semInv
    · have hb := count_set_balance s.pc i PC.ready hi PC.done
      rw [hget] at hb
      simp at hb
      rw [hb]
      exact hs.compInv
    · intro j hj
      by_cases hij : i = j
      · subst hij
        rw [getD_set_self _ _ _ _ hi]
        have := hs.slotInv i hj
        rw [hpc] at this
        simpa using this
      · rw [getD_set_ne _ _ _ hij]
        exact hs.slotInv j hj
    · intro j
      by_cases hij : i = j
      · subst hij
        rw [getD_set_self _ _ _ _ hi]
        have := hs.writesCount i
        rw [hpc] at this
        simpa using this
      · rw [getD_set_ne _ _ _ hij]
        exact hs.writesCount j
    · exact hs.writesVal
    · intro j
      by_cases hij : i = j
      · subst hij
        rw [getD_set_self _ _ _ _ hi]
        have := hs.errCount i
        rw [hpc] at this
        simpa using this
      · rw [getD_set_ne _ _ _ hij]
        exact hs.errCount j
    · exact hs.errVal
    · exact hs.updInv
  | ready =>
    have hi : i < s.pc.length := by
      by_contra hge
      rw [getD_of_length_le _ _ _ (Nat.le_of_not_lt hge)] at hpc
      simp at hpc
    have hin : i < n := hs.lenPC ▸ hi
    have hget : s.pc[i] = PC.ready := by
      rw [← List.getD_eq_getElem s.pc PC.done hi]
      exact hpc
    by_cases hsem : s.sem = 0
    · rw [step_ready_blocked n outcome s i hpc hsem]
      exact hs
    rw [step_ready_go n outcome s i hpc hsem]
    refine ⟨?_, ?_, ?_, ?_, ?_, ?_, ?_, ?_, ?_, ?_⟩
    · simpa using hs.lenPC
    · exact hs.lenRes
    · have hb := count_set_balance s.pc i PC.running hi PC.running
      rw [hget] at hb
      simp at hb
      have := hs.semInv
      show s.sem - 1 + (s.pc.set i PC.running).count PC.running = k
      omega
    · have hb := count_set_balance s.pc i PC.running hi PC.done
      rw [hget] at hb
      simp at hb
      rw [hb]
      exact hs.compInv
    · intro j hj
      by_cases hij : i = j
      · subst hij
        rw [getD_set_self _ _ _ _ hi]
        have := hs.slotInv i hj
        rw [hpc] at this
        simpa using this
      · rw [getD_set_ne _ _ _ hij]
        exact hs.slotInv j hj
    · intro j
      by_cases hij : i = j
      · subst hij
        rw [getD_set_self _ _ _ _ hi]
        have := hs.writesCount i
        rw [hpc] at this
        simpa using this
      · rw [getD_set_ne _ _ _ hij]
        exact hs.writesCount j
    · exact hs.writesVal
    · intro j
      by_cases hij : i = j
      · subst hij
        rw [getD_set_self _ _ _ _ hi]
        have := hs.errCount i
        rw [hpc] at this
        simpa using this
      · rw [getD_set_ne _ _ _ hij]
        exact hs.errCount j
    · exact hs.errVal
    · exact hs.updInv
  | running =>
    have hi : i < s.pc.length := by
      by_contra hge
      rw [getD_of_length_le _ _ _ (Nat.le_of_not_lt hge)] at hpc
      simp at hpc
    have hin : i < n := hs.lenPC ▸ hi
    have hiR : i < s.results.length := by
      rw [hs.lenRes]
      exact hin
    have hget : s.pc[i] = PC.running := by
      rw [← List.getD_eq_getElem s.pc PC.done hi]
      exact hpc
    rw [step_running n outcome s i hpc]
    refine ⟨?_, ?_, ?_, ?_, ?_, ?_, ?_, ?_, ?_, ?_⟩
    · simpa using hs.lenPC
    · simpa using hs.lenRes
    · have hb := count_set_balance s.pc i PC.done hi PC.running
      rw [hget] at hb
      simp at hb
      have := hs.semInv
      show s.sem + 1 + (s.pc.set i PC.done).count PC.running = k
      omega
    · have hb := count_set_balance s.pc i PC.done hi PC.done
      rw [hget] at hb
      simp at hb
      have := hs.compInv
      show s.completed + 1 = (s.pc.set i PC.done).count PC.done
      omega
    · intro j hj
      by_cases hij : i = j
      · subst hij
        rw [getD_set_self _ _ _ _ hi, getD_set_self _ _ _ _ hiR]
        simp
      · rw [getD_set_ne _ _ _ hij, getD_set_ne _ _ _ hij]
        exact hs.slotInv j hj
    · intro j
      rw [countP_append_singleton]
      by_cases hij : i = j
      · subst hij
        rw [getD_set_self _ _ _ _ hi]
        have h0 := hs.writesCount i
        rw [hpc] at h0
        simp at h0
        simpa [hin] using h0
      · rw [getD_set_ne _ _ _ hij]
        have : ((i, finishVal (outcome i)).1 == j) = false := by
          simpa using hij
        rw [this]
        simpa using hs.writesCount j
    · intro w hw
      rcases List.mem_append.mp hw with hw1 | hw2
      · exact hs.writesVal w hw1
      · simp at hw2
        subst hw2
        rfl
    · intro j
      rcases houtcome : outcome i with e | val
      · rw [countP_append_singleton]
        by_cases hij : i = j
        · subst hij
          rw [getD_set_self _ _ _ _ hi]
          have h0 := hs.errCount i
          rw [hpc] at h0
          simp at h0
          simpa [hin, isErr, houtcome] using h0
        · rw [getD_set_ne _ _ _ hij]
          have : ((i, e).1 == j) = false := by
            simpa using hij
          rw [this]
          simpa using hs.errCount j
      · simp only [List.append_nil]
        by_cases hij : i = j
        · subst hij
          rw [getD_set_self _ _ _ _ hi]
          have h0 := hs.errCount i
          rw [hpc] at h0
          simp at h0
          simpa [isErr, houtcome] using h0
        · rw [getD_set_ne _ _ _ hij]
          exact hs.errCount j
    · intro p hp
      rcases houtcome : outcome i with e | val
      · rw [houtcome] at hp
        rcases List.mem_append.mp hp with hp1 | hp2
        · exact hs.errVal p hp1
        · simp at hp2
          subst hp2
          exact houtcome
      · rw [houtcome] at hp
        simp at hp
        exact hs.errVal p hp
    · have h1 : List.range' 1 (s.completed + 1)
          = List.range' 1 s.completed ++ [1 + s.completed] := by
        simpa using @List.range'_concat 1 1 s.completed
      rw [h1, List.filter_append, ← hs.updInv]
      simp [List.filter_cons, Nat.add_comm 1 s.completed]

theorem inv_foldl {V : Type} (n k : Nat) (outcome : Nat → Except Err (Option V))
    (sched : List Nat) (s : MState V) (hs : Inv n k outcome s) :
    Inv n k outcome (sched.foldl (step n outcome) s) := by
  induction sched generalizing s with
  | nil => exact hs
  | cons i rest ih => exact ih _ (inv_step n k outcome s hs i)

theorem inv_run {V : Type} (n k : Nat) (outcome : Nat → Except Err (Option V))
    (sched : List Nat) : Inv n k outcome (run n k outcome sched) :=
  inv_foldl n k outcome sched _ (inv_mkState n k outcome)

section RetryLemmas

variable {V : Type}

/-- The retry wrapper performs at most `fuel + 1` attempts, i.e. at most
`max_retries + 1` invocations of the process function. -/
theorem retryTrace_length (f : Nat → Except Err V) :
    ∀ fuel start, ((retryTrace f start fuel).2).length ≤ fuel + 1 := by
  intro fuel
  induction fuel with
  | zero => intro start; simp [retryTrace]
  | succ m ih =>
    intro start
    rcases hf : f start with e | v
    · have := ih (start + 1)
      simp only [retryTrace, hf, List.length_cons]
      omega
    · simp [retryTrace, hf]

/-- If the first `j` attempts fail and attempt `j` succeeds with `v`, with
`j ≤ fuel`, the wrapper returns `v`. -/
theorem retryTrace_ok (f : Nat → Except Err V) :
    ∀ fuel start j v, (∀ t, t < j → isErr (f (start + t)) = true) →
      f (start + j) = .ok v → j ≤ fuel → (retryTrace f start fuel).1 = .ok v := by
  intro fuel
  induction fuel with
  | zero =>
    intro start j v _ hok hj
    have hj0 : j = 0 := Nat.le_zero.mp hj
    subst hj0
    simp only [retryTrace]
    simpa using hok
  | succ m ih =>
    intro start j v hfail hok hj
    cases j with
    | zero =>
      have : f start = .ok v := by simpa using hok
      simp [retryTrace, this]
    | succ t =>
      have h0 : isErr (f start) = true := by
        simpa using hfail 0 (Nat.succ_pos t)
      rcases hf : f start with e | v0
      · simp only [retryTrace, hf]
        exact ih (start + 1) t v
          (fun u hu => by
            have := hfail (u + 1) (by omega)
            simpa [Nat.add_assoc, Nat.add_comm 1 u] using this)
          (by simpa [Nat.add_assoc, Nat.add_comm 1 t] using hok)
          (by omega)
      · rw [hf] at h0
        simp [isErr] at h0

/-- If every attempt up to `fuel` fails, the wrapper returns the result of the
last attempt, i.e. re-raises the final exception. -/
theorem retryTrace_allFail (f : Nat → Except Err V) :
    ∀ fuel start, (∀ t, t ≤ fuel → isErr (f (start + t)) = true) →
      (retryTrace f start fuel).1 = f (start + fuel) := by
  intro fuel
  induction fuel with
  | zero => intro start _; simp [retryTrace]
  | succ m ih =>
    intro start hfail
    have h0 : isErr (f start) = true := by simpa using hfail 0 (Nat.zero_le _)
    rcases hf : f start with e | v0
    · simp only [retryTrace, hf]
      have := ih (start + 1) (fun u hu => by
        have := hfail (u + 1) (by omega)
        simpa [Nat.add_assoc, Nat.add_comm 1 u] using this)
      rw [this]
      congr 1
      omega
    · rw [hf] at h0
      simp [isErr] at h0

end RetryLemmas

section BatchLemmas

variable {α : Type}

theorem effectiveBatchSize_pos (total bs : Nat) (h : 0 < bs) :
    0 < effectiveBatchSize total bs := by
  unfold effectiveBatchSize
  split
  · omega
  · split <;> omega

theorem pyRangeAux_irrel (stop step : Nat) (hstep : 0 < step) :
    ∀ f1 f2 start, stop - start ≤ f1 → stop - start ≤ f2 →
      pyRangeAux stop step start f1 = pyRangeAux stop step start f2 := by
  intro f1
  induction f1 with
  | zero =>
    intro f2 start h1 h2
    cases f2 with
    | zero => rfl
    | succ g =>
      simp only [pyRangeAux]
      rw [if_neg (by omega)]
  | succ m ih =>
    intro f2 start h1 h2
    cases f2 with
    | zero =>
      simp only [pyRangeAux]
      rw [if_neg (by omega)]
    | succ g =>
      simp only [pyRangeAux]
      by_cases hlt : start < stop
      · rw [if_pos hlt, if_pos hlt]
        rw [ih g (start + step) (by omega) (by omega)]
      · rw [if_neg hlt, if_neg hlt]

theorem pyRange_stop (start stop step : Nat) (h : ¬(0 < step ∧ start < stop)) :
    pyRange start stop step = [] := by
  unfold pyRange
  by_cases hs : 0 < step
  · rw [if_pos hs]
    have : stop - start = 0 := by omega
    rw [this]
    rfl
  · rw [if_neg hs]

theorem pyRange_go (start stop step : Nat) (h : 0 < step ∧ start < stop) :
    pyRange start stop step = start :: pyRange (start + step) stop step := by
  unfold pyRange
  rw [if_pos h.1, if_pos h.1]
  rcases hm : stop - start with _ | m
  · omega
  · simp only [pyRangeAux]
    rw [if_pos h.2]
    rw [pyRangeAux_irrel stop step h.1 m (stop - (start + step)) (start + step)
      (by omega) (by omega)]

theorem flatten_slices_aux (items : List α) (bs : Nat) (hbs : 0 < bs) :
    ∀ fuel start, items.length - start ≤ fuel →
      ((pyRange start items.length bs).map (fun i => (items.drop i).take bs)).flatten
        = items.drop start := by
  intro fuel
  induction fuel with
  | zero =>
    intro start hle
    have hd : items.drop start = [] := List.drop_eq_nil_of_le (by omega)
    rw [pyRange_stop start items.length bs (by omega), hd]
    simp
  | succ m ih =>
    intro start hle
    by_cases h : start < items.length
    · rw [pyRange_go start items.length bs ⟨hbs, h⟩]
      simp only [List.map_cons, List.flatten_cons]
      rw [ih (start + bs) (by omega)]
      have h2 : items.drop (start + bs) = (items.drop start).drop bs := by
        rw [List.drop_drop, Nat.add_comm]
      rw [h2, List.take_append_drop]
    · have hd : items.drop start = [] := List.drop_eq_nil_of_le (by omega)
      rw [pyRange_stop start items.length bs (by omega), hd]
      simp

theorem flatten_ranges_aux (total bs : Nat) (hbs : 0 < bs) :
    ∀ fuel start, total - start ≤ fuel →
      ((pyRange start total bs).map
          (fun i => List.range' i (min (i + bs) total - i))).flatten
        = List.range' start (total - start) := by
  intro fuel
  induction fuel with
  | zero =>
    intro start hle
    have h0 : total - start = 0 := by omega
    rw [pyRange_stop start total bs (by omega), h0]
    simp
  | succ m ih =>
    intro start hle
    by_cases h : start < total
    · rw [pyRange_go start total bs ⟨hbs, h⟩]
      simp only [List.map_cons, List.flatten_cons]
      rw [ih (start + bs) (by omega)]
      by_cases hend : start + bs ≤ total
      · have hm : min (start + bs) total - start = bs := by omega
        rw [hm]
        have happ := List.range'_append start bs (total - (start + bs)) 1
        simp only [Nat.one_mul] at happ
        rw [happ]
        congr 1
        omega
      · have hm : min (start + bs) total - start = total - start := by omega
        have hz : total - (start + bs) = 0 := by omega
        rw [hm, hz]
        simp
    · have h0 : total - start = 0 := by omega
      rw [pyRange_stop start total bs (by omega), h0]
      simp

/-- The batches cover the input exactly: concatenating them in order recovers
the input list. -/
theorem create_batches_flatten (items : List α) (bs : Nat) (hbs : 0 < bs) :
    flattenBatches (create_batches items bs) = items := by
  unfold flattenBatches create_batches
  rw [List.map_map]
  have := flatten_slices_aux items (effectiveBatchSize items.length bs)
    (effectiveBatchSize_pos _ _ hbs) items.length 0 (by omega)
  simpa using this

/-- The index lists of the batches concatenate, in order, to
`[0, 1, ..., total - 1]`: contiguous ranges covering every index exactly once. -/
theorem create_batches_indices (items : List α) (bs : Nat) (hbs : 0 < bs) :
    ((create_batches items bs).map Prod.fst).flatten = List.range items.length := by
  unfold create_batches
  rw [List.map_map]
  have := flatten_ranges_aux items.length (effectiveBatchSize items.length bs)
    (effectiveBatchSize_pos _ _ hbs) items.length 0 (by omega)
  rw [List.range_eq_range']
  simpa using this

end BatchLemmas

section MachineLemmas

variable {V : Type}

/-- Once every task is done, the results list is exactly the per-item outcomes
in input order, independent of the schedule. -/
theorem results_eq_of_allDone (n k : Nat) (outcome : Nat → Except Err (Option V))
    (s : MState V) (hinv : Inv n k outcome s) (hdone : AllDone n s) :
    s.results = (List.range n).map (fun i => finishVal (outcome i)) := by
  apply List.ext_getElem
  · simp [hinv.lenRes]
  · intro i h1 h2
    have hin : i < n := by
      have := hinv.lenRes
      omega
    have hslot := hinv.slotInv i hin
    rw [hdone i hin, if_pos rfl] at hslot
    rw [List.getD_eq_getElem s.results none h1] at hslot
    simpa using hslot

/-- When every task is done, `completed` equals the total item count. -/
theorem completed_eq_of_allDone (n k : Nat) (outcome : Nat → Except Err (Option V))
    (s : MState V) (hinv : Inv n k outcome s) (hdone : AllDone n s) :
    s.completed = n := by
  rw [hinv.compInv]
  have hall : ∀ a ∈ s.pc, PC.done = a := by
    intro a ha
    obtain ⟨j, hj, hje⟩ := List.mem_iff_getElem.mp ha
    have hjn : j < n := by
      have := hinv.lenPC
      omega
    have := hdone j hjn
    rw [← List.getD_eq_getElem s.pc PC.done hj] at hje
    rw [← hje]
    exact this.symm
  calc s.pc.count PC.done = s.pc.length := by
        rw [List.count_eq_length.mpr hall]
    _ = n := hinv.lenPC

/-- `completed` never decreases across a scheduling step. -/
theorem completed_step_le (n : Nat) (outcome : Nat → Except Err (Option V))
    (s : MState V) (i : Nat) :
    s.completed ≤ (step n outcome s i).completed := by
  cases hpc : s.pc.getD i PC.done with
  | done => rw [step_done n outcome s i hpc]
  | gate => rw [step_gate n outcome s i hpc]
  | ready =>
    by_cases hsem : s.sem = 0
    · rw [step_ready_blocked n outcome s i hpc hsem]
    · rw [step_ready_go n outcome s i hpc hsem]
  | running =>
    rw [step_running n outcome s i hpc]
    exact Nat.le_succ _

/-- `completed` never decreases along a run: it is monotonically
non-decreasing over the whole execution. -/
theorem completed_foldl_le (n : Nat) (outcome : Nat → Except Err (Option V))
    (sched : List Nat) (s : MState V) :
    s.completed ≤ (sched.foldl (step n outcome) s).completed := by
  induction sched generalizing s with
  | nil => exact Nat.le_refl _
  | cons i rest ih =>
    exact Nat.le_trans (completed_step_le n outcome s i) (ih _)

theorem completed_mono (n k : Nat) (outcome : Nat → Except Err (Option V))
    (sched ext : List Nat) :
    (run n k outcome sched).completed ≤ (run n k outcome (sched ++ ext)).completed := by
  unfold run
  rw [List.foldl_append]
  exact completed_foldl_le n outcome ext _

/-- A finished item whose call raised `e` has `(index, exception)` in the
error log. -/
theorem errLog_mem_of_error (n k : Nat) (outcome : Nat → Except Err (Option V))
    (s : MState V) (hinv : Inv n k outcome s) (i : Nat) (e : Err) (hin : i < n)
    (hdone : s.pc.getD i PC.done = PC.done) (he : outcome i = .error e) :
    (i, e) ∈ s.errLog := by
  have hc := hinv.errCount i
  rw [if_pos ⟨hin, hdone, by simp [isErr, he]⟩] at hc
  have hpos : 0 < s.errLog.countP (fun p => p.1 == i) := by omega
  obtain ⟨p, hp, hpi⟩ := List.countP_pos_iff.mp hpos
  have hval := hinv.errVal p hp
  have hp1 : p.1 = i := by simpa using hpi
  rw [hp1, he] at hval
  have hp2 : p.2 = e := by
    injection hval.symm
  have : p = (i, e) := by
    cases p
    simp_all
  rw [← this]
  exact hp

/-- The sequential schedule: visit each task three times in index order
(limiter, semaphore, processing).  With at least one worker this schedule
drives every item to completion, whatever the item outcomes are. -/
def seqSched (n : Nat) : List Nat :=
  (List.range n).flatMap (fun i => [i, i, i])

/-- From `gate`, three consecutive steps of the same task complete it and
restore the semaphore, whatever else is in the state. -/
theorem triple_step (n : Nat) (outcome : Nat → Except Err (Option V))
    (s : MState V) (i : Nat) (hpc : s.pc.getD i PC.done = PC.gate)
    (hsem : 0 < s.sem) :
    ((step n outcome (step n outcome (step n outcome s i) i) i).pc
        = s.pc.set i PC.done)
      ∧ (step n outcome (step n outcome (step n outcome s i) i) i).sem = s.sem := by
  have hi : i < s.pc.length := by
    by_contra hge
    rw [getD_of_length_le _ _ _ (Nat.le_of_not_lt hge)] at hpc
    simp at hpc
  set s1 := step n outcome s i with hs1
  set s2 := step n outcome s1 i with hs2
  have e1 : s1 = { s with pc := s.pc.set i PC.ready } := step_gate n outcome s i hpc
  have hpc1 : s1.pc.getD i PC.done = PC.ready := by
    rw [e1]
    exact getD_set_self _ _ _ _ hi
  have hsem1 : s1.sem = s.sem := by rw [e1]
  have e2 : s2 = { s1 with pc := s1.pc.set i PC.running, sem := s1.sem - 1 } :=
    step_ready_go n outcome s1 i hpc1 (by omega)
  have hi1 : i < s1.pc.length := by
    rw [e1]
    simpa using hi
  have hpc2 : s2.pc.getD i PC.done = PC.running := by
    rw [e2]
    show (s1.pc.set i PC.running).getD i PC.done = PC.running
    exact getD_set_self _ _ _ _ hi1
  have hsem2 : s2.sem = s.sem - 1 := by
    rw [e2]
    show s1.sem - 1 = s.sem - 1
    rw [hsem1]
  have e3 := step_running n outcome s2 i hpc2
  constructor
  · rw [e3]
    show s2.pc.set i PC.done = s.pc.set i PC.done
    rw [e2]
    show (s1.pc.set i PC.running).set i PC.done = s.pc.set i PC.done
    rw [e1]
    show ((s.pc.set i PC.ready).set i PC.running).set i PC.done = s.pc.set i PC.done
    rw [List.set_set, List.set_set]
  · rw [e3]
    show s2.sem + 1 = s.sem
    omega

/-- After running the sequential schedule truncated to the first `m` tasks,
tasks `0..m-1` are done, the rest are still at `gate`, and the semaphore is
full again. -/
theorem seq_state (n k : Nat) (outcome : Nat → Except Err (Option V)) (hk : 0 < k) :
    ∀ m, m ≤ n →
      (((List.range m).flatMap (fun i => [i, i, i])).foldl (step n outcome)
          (mkState n k)).pc.length = n
        ∧ (((List.range m).flatMap (fun i => [i, i, i])).foldl (step n outcome)
            (mkState n k)).sem = k
        ∧ ∀ j, j < n →
            (((List.range m).flatMap (fun i => [i, i, i])).foldl (step n outcome)
                (mkState n k)).pc.getD j PC.done
              = (if j < m then PC.done else PC.gate) := by
  intro m
  induction m with
  | zero =>
    intro _
    refine ⟨by simp [mkState], by simp [mkState], ?_⟩
    intro j hj
    simp [mkState, List.getD_eq_getElem?_getD, List.getElem?_replicate, hj]
  | succ m ih =>
    intro hm
    obtain ⟨hlen, hsem, hpt⟩ := ih (by omega)
    have hflat : (List.range (m + 1)).flatMap (fun i => [i, i, i])
        = (List.range m).flatMap (fun i => [i, i, i]) ++ [m, m, m] := by
      rw [List.range_succ, List.flatMap_append]
      simp
    rw [hflat, List.foldl_append]
    set s := ((List.range m).flatMap (fun i => [i, i, i])).foldl (step n outcome)
      (mkState n k) with hs
    have hgate : s.pc.getD m PC.done = PC.gate := by
      have := hpt m (by omega)
      simpa using this
    have htrip := triple_step n outcome s m hgate (by omega)
    have hfold : [m, m, m].foldl (step n outcome) s
        = step n outcome (step n outcome (step n outcome s m) m) m := by
      simp [List.foldl]
    rw [hfold]
    refine ⟨?_, ?_, ?_⟩
    · rw [htrip.1]
      simpa using hlen
    · rw [htrip.2]
      exact hsem
    · intro j hj
      rw [htrip.1]
      by_cases hjm : m = j
      · subst hjm
        rw [getD_set_self _ _ _ _ (by omega)]
        simp
      · rw [getD_set_ne _ _ _ hjm]
        rw [hpt j hj]
        by_cases hlt : j < m
        · rw [if_pos hlt, if_pos (by omega)]
        · rw [if_neg hlt, if_neg (by omega)]

/-- With at least one worker, the sequential schedule completes all tasks. -/
theorem seqSched_allDone (n k : Nat) (outcome : Nat → Except Err (Option V))
    (hk : 0 < k) : AllDone n (run n k outcome (seqSched n)) := by
  intro j hj
  have := (seq_state n k outcome hk n (Nat.le_refl n)).2.2 j hj
  rw [if_pos hj] at this
  exact this

/-- `determine_worker_count` always yields at least one worker. -/
theorem determine_worker_count_pos (cpu_count : Option Nat) (workers : Option Int) :
    1 ≤ (determine_worker_count cpu_count workers).toNat := by
  unfold determine_worker_count
  cases workers with
  | none =>
    have h4 : (1 : Nat) ≤ cpuOr4 cpu_count := by
      cases cpu_count with
      | none => simp [cpuOr4]
      | some c =>
        simp only [cpuOr4]
        split <;> omega
    simp only []
    have : (1 : Int) ≤ min ((cpuOr4 cpu_count : Int) * 2) 128 := by
      have : (1 : Int) ≤ (cpuOr4 cpu_count : Int) := by exact_mod_cast h4
      omega
    omega
  | some w =>
    simp only []
    have : (1 : Int) ≤ max 1 w := le_max_left 1 w
    omega

/-- With a positive batch size, `parallel_process` is the machine run on the
original items (batching only groups them; it does not change the item list
the scheduler sees). -/
theorem parallel_process_eq {Item : Type} [Inhabited Item]
    (items : List Item) (cpu_count : Option Nat) (workers : Option Int)
    (batch_size : Nat) (hbs : 0 < batch_size)
    (procF : Item → Kwargs → Nat → Except Err (Option V)) (max_retries : Nat)
    (tmo : Nat → Bool) (kws : Kwargs) (sched : List Nat) :
    parallel_process items cpu_count workers batch_size procF max_retries tmo kws sched
      = run items.length (determine_worker_count cpu_count workers).toNat
          (fun i => itemOutcome (procF (items.getD i default) (remainingKwargs kws))
            max_retries (tmo i))
          sched := by
  unfold parallel_process process_batches
  rw [create_batches_flatten items batch_size hbs]

end MachineLemmas

theorem create_batches_nil {α : Type} (bs : Nat) :
    create_batches ([] : List α) bs = [] := by
  have h0 : ∀ x, pyRange 0 0 x = [] := fun x => pyRange_stop 0 0 x (by omega)
  simp [create_batches, h0]

theorem run_zero_items {V : Type} (k : Nat) (outcome : Nat → Except Err (Option V))
    (sched : List Nat) : run 0 k outcome sched = mkState 0 k := by
  unfold run
  induction sched with
  | nil => rfl
  | cons i rest ih =>
    simp only [List.foldl_cons]
    rw [step_done 0 outcome (mkState 0 k) i (by simp [mkState])]
    exact ih

/-- C3: the retry wrapper produced by `_make_retry_async` invokes the process
function at most `max_retries + 1` times; if the first `j` attempts raise and
attempt `j ≤ max_retries` returns a value, that value is returned — in
particular an item failing exactly `max_retries` times and then succeeding
yields the success value; if every attempt raises, the wrapper re-raises the
exception of the last attempt (to the scheduling loop, which records it as a
per-item failure — see C2 — instead of aborting sibling items). -/
theorem claim_C3_retry_wrapper {V : Type} (f : Nat → Except Err V) (max_retries : Nat) :
    (retryTrace f 0 max_retries).2.length ≤ max_retries + 1
    ∧ (∀ j v, (∀ t, t < j → isErr (f t) = true) → f j = .ok v → j ≤ max_retries →
        (retryTrace f 0 max_retries).1 = .ok v)
    ∧ ((∀ t, t ≤ max_retries → isErr (f t) = true) →
        (retryTrace f 0 max_retries).1 = f max_retries)
    ∧ (∀ v, (∀ t, t < max_retries → isErr (f t) = true) → f max_retries = .ok v →
        (retryTrace f 0 max_retries).1 = .ok v) := by
  refine ⟨retryTrace_length f max_retries 0, ?_, ?_, ?_⟩
  · intro j v hfail hok hj
    exact retryTrace_ok f max_retries 0 j v (by simpa using hfail)
      (by simpa using hok) hj
  · intro hfail
    have := retryTrace_allFail f max_retries 0 (by simpa using hfail)
    simpa using this
  · intro v hfail hok
    exact retryTrace_ok f max_retries 0 max_retries v (by simpa using hfail)
      (by simpa using hok) (Nat.le_refl _)

/-- Witness for C3 at a concrete input: `max_retries = 2` and a process
function that fails on attempts 0 and 1 and succeeds on attempt 2, which
yields the success value `7`. -/
theorem claim_C3_retry_wrapper_witness :
    (retryTrace (fun t => if t < 2 then .error (Err.exc t) else .ok 7) 0 2).1
      = .ok 7 :=
  (claim_C3_retry_wrapper (fun t => if t < 2 then .error (Err.exc t) else .ok 7)
    2).2.2.2 7 (by decide) (by rfl)

/-- C4: `create_batches` partitions the items into contiguous index ranges in
input order, covering every index exactly once; its effective batch size is
`max(batch_size, total / 50)` when `total > 1000`, `max(1, total / 4)` when
`total < 50`, and `batch_size` otherwise; in particular 2000 items with
requested size 20 give batches of size 40 and 10 items with requested size 20
give batches of size 2. -/
theorem claim_C4_create_batches {α : Type} (items : List α) (batch_size : Nat)
    (hbs : 0 < batch_size) :
    flattenBatches (create_batches items batch_size) = items
    ∧ ((create_batches items batch_size).map Prod.fst).flatten
        = List.range items.length
    ∧ (∀ p ∈ create_batches items batch_size, ∃ i,
        p.1 = List.range' i
          (min (i + effectiveBatchSize items.length batch_size) items.length - i)
        ∧ p.2 = (items.drop i).take (effectiveBatchSize items.length batch_size)
        ∧ p.2.length
            = min (effectiveBatchSize items.length batch_size) (items.length - i))
    ∧ (items.length > 1000 →
        effectiveBatchSize items.length batch_size
          = max batch_size (items.length / 50))
    ∧ (items.length < 50 →
        effectiveBatchSize items.length batch_size = max 1 (items.length / 4))
    ∧ (50 ≤ items.length → items.length ≤ 1000 →
        effectiveBatchSize items.length batch_size = batch_size)
    ∧ effectiveBatchSize 2000 20 = 40
    ∧ effectiveBatchSize 10 20 = 2 := by
  refine ⟨create_batches_flatten items batch_size hbs,
    create_batches_indices items batch_size hbs, ?_, ?_, ?_, ?_, by decide, by decide⟩
  · intro p hp
    simp only [create_batches, List.mem_map] at hp
    obtain ⟨i, _, hpe⟩ := hp
    refine ⟨i, ?_, ?_, ?_⟩
    · rw [← hpe]
    · rw [← hpe]
    · rw [← hpe]
      simp
  · intro h
    unfold effectiveBatchSize
    rw [if_pos h]
  · intro h
    unfold effectiveBatchSize
    rw [if_neg (by omega), if_pos h]
    omega
  · intro h1 h2
    unfold effectiveBatchSize
    rw [if_neg (by omega), if_neg (by omega)]

/-- Witness for C4 at a concrete input: three items, batch size 2. -/
theorem claim_C4_create_batches_witness :
    (0 < 2 ∧ flattenBatches (create_batches [10, 20, 30] 2) = [10, 20, 30]) :=
  ⟨by decide, (claim_C4_create_batches [10, 20, 30] 2 (by decide)).1⟩

/-- C5: at every point of every execution, at most `workers` items are
simultaneously in the RUNNING state (inside the retry-wrapped call): the
semaphore balance `sem + running = workers` is an invariant, so the count of
tasks holding a permit never exceeds the worker count. -/
theorem claim_C5_concurrency_bound {Item V : Type} [Inhabited Item]
    (items : List Item) (cpu_count : Option Nat) (workers : Option Int)
    (batch_size : Nat) (procF : Item → Kwargs → Nat → Except Err (Option V))
    (max_retries : Nat) (tmo : Nat → Bool) (kws : Kwargs) (sched : List Nat) :
    (parallel_process items cpu_count workers batch_size procF max_retries tmo kws
        sched).pc.count PC.running
      ≤ (determine_worker_count cpu_count workers).toNat := by
  have hinv := inv_run (flattenBatches (create_batches items batch_size)).length
    (determine_worker_count cpu_count workers).toNat
    (fun i => itemOutcome
      (procF ((flattenBatches (create_batches items batch_size)).getD i default)
        (remainingKwargs kws)) max_retries (tmo i)) sched
  have hsem := hinv.semInv
  have heq : parallel_process items cpu_count workers batch_size procF max_retries
        tmo kws sched
      = run (flattenBatches (create_batches items batch_size)).length
          (determine_worker_count cpu_count workers).toNat
          (fun i => itemOutcome
            (procF ((flattenBatches (create_batches items batch_size)).getD i default)
              (remainingKwargs kws)) max_retries (tmo i)) sched := rfl
  rw [heq]
  omega

/-- C6: with an empty input list, `parallel_process` produces the empty result
list, the machine state stays the initial state under every schedule (no task
is created, nothing is written or logged), and the call log is empty: the
process function is never invoked. -/
theorem claim_C6_empty_input {Item V : Type} [Inhabited Item]
    (cpu_count : Option Nat) (workers : Option Int) (batch_size : Nat)
    (procF : Item → Kwargs → Nat → Except Err (Option V)) (max_retries : Nat)
    (tmo : Nat → Bool) (kws : Kwargs) (sched : List Nat) :
    create_batches ([] : List Item) batch_size = []
    ∧ parallel_process ([] : List Item) cpu_count workers batch_size procF
        max_retries tmo kws sched
        = mkState 0 (determine_worker_count cpu_count workers).toNat
    ∧ (parallel_process ([] : List Item) cpu_count workers batch_size procF
        max_retries tmo kws sched).results = []
    ∧ (parallel_process ([] : List Item) cpu_count workers batch_size procF
        max_retries tmo kws sched).writes = []
    ∧ callLog (create_batches ([] : List Item) batch_size) procF max_retries tmo kws
        = [] := by
  have hcb := @create_batches_nil Item batch_size
  have h2 : parallel_process ([] : List Item) cpu_count workers batch_size procF
      max_retries tmo kws sched
      = mkState 0 (determine_worker_count cpu_count workers).toNat := by
    unfold parallel_process
    rw [hcb]
    exact run_zero_items _ _ _
  refine ⟨hcb, h2, ?_, ?_, ?_⟩
  · rw [h2]
    rfl
  · rw [h2]
    rfl
  · rw [hcb]
    rfl

/-- C7: `determine_worker_count` returns `max(1, requested)` for an explicit
requested count (any explicit positive count is used unchanged, with floor 1),
and `min(2 × logical_cpu_count, 128)` when no count is supplied and the CPU
count is available. -/
theorem claim_C7_worker_count (cpu_count : Option Nat) (c : Nat) (w : Int) :
    determine_worker_count cpu_count (some w) = max 1 w
    ∧ (1 ≤ w → determine_worker_count cpu_count (some w) = w)
    ∧ (0 < c → determine_worker_count (some c) none = min (2 * (c : Int)) 128) := by
  refine ⟨rfl, ?_, ?_⟩
  · intro hw
    show max 1 w = w
    omega
  · intro hc
    show min ((cpuOr4 (some c) : Int) * 2) 128 = min (2 * (c : Int)) 128
    have hcc : cpuOr4 (some c) = c := by
      show (if c = 0 then 4 else c) = c
      rw [if_neg (by omega)]
    rw [hcc, Int.mul_comm]

/-- Witness for C7: an explicit request of 5 workers is used unchanged, and
with 8 CPUs and no request the default is `min(16, 128) = 16`. -/
theorem claim_C7_worker_count_witness :
    (1 : Int) ≤ 5 ∧ determine_worker_count (some 8) (some 5) = 5
      ∧ (0 < 8 ∧ determine_worker_count (some 8) none = min (2 * (8 : Int)) 128) :=
  ⟨by decide, (claim_C7_worker_count (some 8) 8 5).2.1 (by decide),
    by decide, (claim_C7_worker_count (some 8) 8 5).2.2 (by decide)⟩

/-- C1: for every input and every process function, `parallel_process` returns
a list of the input's length; each result slot is written at most once, always
by the task of that index and always with that item's outcome; and once every
task is done (for any completing schedule, hence independent of completion
order, and independent of batch grouping since the batches flatten back to the
input) slot `i` holds exactly the outcome of processing `items[i]` — its
success value, or `none` on permanent failure — with every slot written
exactly once. -/
theorem claim_C1_order_and_single_write {Item V : Type} [Inhabited Item]
    (items : List Item) (cpu_count : Option Nat) (workers : Option Int)
    (batch_size : Nat) (procF : Item → Kwargs → Nat → Except Err (Option V))
    (max_retries : Nat) (tmo : Nat → Bool) (kws : Kwargs) (sched : List Nat)
    (hbs : 0 < batch_size) :
    (parallel_process items cpu_count workers batch_size procF max_retries tmo kws
        sched).results.length = items.length
    ∧ (∀ i, (parallel_process items cpu_count workers batch_size procF max_retries
        tmo kws sched).writes.countP (fun w => w.1 == i) ≤ 1)
    ∧ (∀ w ∈ (parallel_process items cpu_count workers batch_size procF max_retries
        tmo kws sched).writes,
        w.2 = finishVal (itemOutcome (procF (items.getD w.1 default)
          (remainingKwargs kws)) max_retries (tmo w.1)))
    ∧ (AllDone items.length (parallel_process items cpu_count workers batch_size
          procF max_retries tmo kws sched) →
        (parallel_process items cpu_count workers batch_size procF max_retries tmo
            kws sched).results
          = (List.range items.length).map (fun i =>
              finishVal (itemOutcome (procF (items.getD i default)
                (remainingKwargs kws)) max_retries (tmo i)))
        ∧ ∀ i, i < items.length →
            (parallel_process items cpu_count workers batch_size procF max_retries
              tmo kws sched).writes.countP (fun w => w.1 == i) = 1) := by
  rw [parallel_process_eq items cpu_count workers batch_size hbs procF max_retries
    tmo kws sched]
  have hinv := inv_run items.length (determine_worker_count cpu_count workers).toNat
    (fun i => itemOutcome (procF (items.getD i default) (remainingKwargs kws))
      max_retries (tmo i)) sched
  refine ⟨hinv.lenRes, ?_, hinv.writesVal, ?_⟩
  · intro i
    rw [hinv.writesCount i]
    split <;> omega
  · intro hdone
    refine ⟨results_eq_of_allDone _ _ _ _ hinv hdone, ?_⟩
    intro i hi
    rw [hinv.writesCount i, if_pos ⟨hi, hdone i hi⟩]

/-- Witness for C1: two items processed to completion under the sequential
schedule produce a result list of length 2. -/
theorem claim_C1_order_and_single_write_witness :
    0 < 1 ∧ (parallel_process ([10, 20] : List Nat) (some 1) (some 1) 1
        (fun it _ _ => Except.ok (some it)) 0 (fun _ => false) [] (seqSched 2)).results.length
      = ([10, 20] : List Nat).length :=
  ⟨by decide, (claim_C1_order_and_single_write ([10, 20] : List Nat) (some 1)
    (some 1) 1 (fun it _ _ => Except.ok (some it)) 0 (fun _ => false) []
    (seqSched 2) (by decide)).1⟩

/-- C2: an item whose wrapped call ends in an exception — retries exhausted or
per-item timeout — gets `none` in its slot and an `(index, exception)` entry
in the error log; the call still returns a list of the input's length (no
exception propagates to the caller), every other item's slot still holds its
own outcome, and no failure prevents completion: the sequential schedule
completes all tasks whatever the outcomes are. -/
theorem claim_C2_failure_localized {Item V : Type} [Inhabited Item]
    (items : List Item) (cpu_count : Option Nat) (workers : Option Int)
    (batch_size : Nat) (procF : Item → Kwargs → Nat → Except Err (Option V))
    (max_retries : Nat) (tmo : Nat → Bool) (kws : Kwargs) (sched : List Nat)
    (i : Nat) (e : Err) (hbs : 0 < batch_size) (hin : i < items.length)
    (he : itemOutcome (procF (items.getD i default) (remainingKwargs kws))
        max_retries (tmo i) = .error e) :
    (parallel_process items cpu_count workers batch_size procF max_retries tmo kws
        sched).results.length = items.length
    ∧ (AllDone items.length (parallel_process items cpu_count workers batch_size
          procF max_retries tmo kws sched) →
        (parallel_process items cpu_count workers batch_size procF max_retries tmo
            kws sched).results.getD i none = none
        ∧ (i, e) ∈ (parallel_process items cpu_count workers batch_size procF
            max_retries tmo kws sched).errLog
        ∧ (∀ j, j < items.length →
            (parallel_process items cpu_count workers batch_size procF max_retries
                tmo kws sched).results.getD j none
              = finishVal (itemOutcome (procF (items.getD j default)
                  (remainingKwargs kws)) max_retries (tmo j))))
    ∧ AllDone items.length (parallel_process items cpu_count workers batch_size
        procF max_retries tmo kws (seqSched items.length)) := by
  rw [parallel_process_eq items cpu_count workers batch_size hbs procF max_retries
      tmo kws sched,
    parallel_process_eq items cpu_count workers batch_size hbs procF max_retries
      tmo kws (seqSched items.length)]
  have hinv := inv_run items.length (determine_worker_count cpu_count workers).toNat
    (fun j => itemOutcome (procF (items.getD j default) (remainingKwargs kws))
      max_retries (tmo j)) sched
  refine ⟨hinv.lenRes, ?_, ?_⟩
  · intro hdone
    have hslot : ∀ j, j < items.length →
        (run items.length (determine_worker_count cpu_count workers).toNat
          (fun j => itemOutcome (procF (items.getD j default) (remainingKwargs kws))
            max_retries (tmo j)) sched).results.getD j none
        = finishVal (itemOutcome (procF (items.getD j default) (remainingKwargs kws))
            max_retries (tmo j)) := by
      intro j hj
      have hsj := hinv.slotInv j hj
      rw [hdone j hj, if_pos rfl] at hsj
      exact hsj
    refine ⟨?_, ?_, hslot⟩
    · have := hslot i hin
      rw [he] at this
      simpa [finishVal] using this
    · exact errLog_mem_of_error _ _ _ _ hinv i e hin (hdone i hin) he
  · exact seqSched_allDone _ _ _ (determine_worker_count_pos cpu_count workers)

/-- Witness for C2: among two items, the one with value 20 always fails; its
slot is `none` after a completing run. -/
theorem claim_C2_failure_localized_witness :
    0 < 1 ∧ (1 : Nat) < ([10, 20] : List Nat).length
    ∧ (parallel_process ([10, 20] : List Nat) (some 1) (some 1) 1
        (fun it _ _ => if it == 20 then Except.error (Err.exc 0) else Except.ok (some it))
        0 (fun _ => false) [] (seqSched 2)).results.getD 1 none = none :=
  ⟨by decide, by decide,
    ((claim_C2_failure_localized ([10, 20] : List Nat) (some 1) (some 1) 1
      (fun it _ _ => if it == 20 then Except.error (Err.exc 0) else Except.ok (some it))
      0 (fun _ => false) [] (seqSched 2) 1 (Err.exc 0) (by decide) (by decide)
      (by rfl)).2.1 (by decide)).1⟩

/-- C8: the progress counter equals the number of items in a terminal state
(so it is bumped exactly once per completed item), it never decreases as the
schedule extends, it ends at the total item count when every task is done, and
the progress values pushed to the observer are exactly those completion counts
that are multiples of 10 or equal to the total. -/
theorem claim_C8_progress {V : Type} (n k : Nat)
    (outcome : Nat → Except Err (Option V)) (sched ext : List Nat) :
    (run n k outcome sched).completed = (run n k outcome sched).pc.count PC.done
    ∧ (run n k outcome sched).completed ≤ (run n k outcome (sched ++ ext)).completed
    ∧ (AllDone n (run n k outcome sched) → (run n k outcome sched).completed = n)
    ∧ (run n k outcome sched).updates
        = (List.range' 1 (run n k outcome sched).completed).filter (pushCond n)
    ∧ (∀ m, m ∈ (run n k outcome sched).updates ↔
        1 ≤ m ∧ m ≤ (run n k outcome sched).completed ∧ (m % 10 = 0 ∨ m = n)) := by
  have hinv := inv_run n k outcome sched
  refine ⟨hinv.compInv, completed_mono n k outcome sched ext, ?_, hinv.updInv, ?_⟩
  · intro hdone
    exact completed_eq_of_allDone n k outcome _ hinv hdone
  · intro m
    rw [hinv.updInv]
    simp only [List.mem_filter, List.mem_range'_1, pushCond]
    constructor
    · rintro ⟨⟨hm1, hm2⟩, hm3⟩
      simp at hm3
      omega
    · rintro ⟨hm1, hm2, hm3⟩
      refine ⟨⟨hm1, by omega⟩, ?_⟩
      simp
      omega

/-- Witness for C8: a completing two-item run ends with `completed = 2`. -/
theorem claim_C8_progress_witness :
    AllDone 2 (run 2 1 (fun i => (Except.ok (some i) : Except Err (Option Nat)))
      (seqSched 2))
    ∧ (run 2 1 (fun i => (Except.ok (some i) : Except Err (Option Nat)))
        (seqSched 2)).completed = 2 :=
  ⟨by decide, (claim_C8_progress 2 1 _ (seqSched 2) []).2.2.1 (by decide)⟩

/-- C9: a successful call that returns `None` is recorded exactly like a
permanent failure: if two runs differ only in item `i` — succeeding with value
`None` in one, exhausting retries or timing out in the other — the returned
result lists are identical, and the slot holds `none` in both, so the caller
cannot distinguish the two cases from the returned list. -/
theorem claim_C9_none_indistinguishable {V : Type} (n k : Nat)
    (outcome1 outcome2 : Nat → Except Err (Option V)) (i : Nat) (e : Err)
    (sched1 sched2 : List Nat)
    (h1 : outcome1 i = .ok none) (h2 : outcome2 i = .error e)
    (hagree : ∀ j, j ≠ i → outcome1 j = outcome2 j)
    (hd1 : AllDone n (run n k outcome1 sched1))
    (hd2 : AllDone n (run n k outcome2 sched2)) :
    (run n k outcome1 sched1).results = (run n k outcome2 sched2).results
    ∧ (run n k outcome1 sched1).results.getD i none = none := by
  have hinv1 := inv_run n k outcome1 sched1
  have hinv2 := inv_run n k outcome2 sched2
  have r1 := results_eq_of_allDone n k outcome1 _ hinv1 hd1
  have r2 := results_eq_of_allDone n k outcome2 _ hinv2 hd2
  have hmap : (List.range n).map (fun j => finishVal (outcome1 j))
      = (List.range n).map (fun j => finishVal (outcome2 j)) := by
    apply List.map_congr_left
    intro j _
    by_cases hji : j = i
    · subst hji
      rw [h1, h2]
      rfl
    · rw [hagree j hji]
  constructor
  · rw [r1, r2, hmap]
  · by_cases hi : i < n
    · rw [r1, List.getD_eq_getElem _ _ (by simpa)]
      simp [h1, finishVal]
    · rw [getD_of_length_le _ _ _ (by rw [hinv1.lenRes]; omega)]

/-- Witness for C9: one item; success-with-`None` and permanent failure leave
the same result list. -/
theorem claim_C9_none_indistinguishable_witness :
    (run 1 1 (fun j => if j = 0 then (Except.ok none : Except Err (Option Nat))
        else Except.error (Err.exc 9)) (seqSched 1)).results
      = (run 1 1 (fun j => if j = 0 then (Except.error (Err.exc 0) : Except Err (Option Nat))
          else Except.error (Err.exc 9)) (seqSched 1)).results :=
  (claim_C9_none_indistinguishable 1 1
    (fun j => if j = 0 then (Except.ok none : Except Err (Option Nat))
      else Except.error (Err.exc 9))
    (fun j => if j = 0 then (Except.error (Err.exc 0) : Except Err (Option Nat))
      else Except.error (Err.exc 9))
    0 (Err.exc 0) (seqSched 1) (seqSched 1) (by rfl) (by rfl)
    (fun j hj => by simp [hj]) (by decide) (by decide)).1

/-- C10: `rate_limit_per_sec` travels only through `**kwargs`:
`process_batches` pops it before dispatch, a missing, `None` or non-positive
value means no rate limiting and a limiter is constructed exactly when the
value is positive; all remaining keyword arguments are forwarded unchanged to
every invocation of the process function (including every retry attempt), and
no invocation ever receives a `rate_limit_per_sec` argument. -/
theorem claim_C10_rate_limit_kwargs {Item V : Type} [Inhabited Item]
    (batches : List (List Nat × List Item))
    (procF : Item → Kwargs → Nat → Except Err (Option V)) (max_retries : Nat)
    (tmo : Nat → Bool) (kws : Kwargs) :
    (limiterMade (rateLimitOf kws) = true ↔
      ∃ q, kws.lookup rateKey = some (some q) ∧ 0 < q)
    ∧ (kws.lookup rateKey = none → rateLimitOf kws = 0)
    ∧ (kws.lookup rateKey = some none → rateLimitOf kws = 0)
    ∧ (∀ q, kws.lookup rateKey = some (some q) → q ≤ 0 →
        limiterMade (rateLimitOf kws) = false)
    ∧ rateKey ∉ (remainingKwargs kws).map Prod.fst
    ∧ (∀ p ∈ remainingKwargs kws, p ∈ kws)
    ∧ (∀ p ∈ kws, p.1 ≠ rateKey → p ∈ remainingKwargs kws)
    ∧ ((∀ p ∈ kws, p.1 ≠ rateKey) → remainingKwargs kws = kws)
    ∧ (∀ entry ∈ callLog batches procF max_retries tmo kws,
        entry.2.2 = remainingKwargs kws
        ∧ rateKey ∉ entry.2.2.map Prod.fst) := by
  have hnot : rateKey ∉ (remainingKwargs kws).map Prod.fst := by
    intro hmem
    obtain ⟨p, hp, hfst⟩ := List.mem_map.mp hmem
    have hcond := (List.mem_filter.mp hp).2
    simp at hcond
    exact hcond hfst
  have hlim : ∀ r : Rat, limiterMade r = true ↔ 0 < r := by
    intro r
    unfold limiterMade
    simp
  have hn1 : kws.lookup rateKey = none → rateLimitOf kws = 0 := by
    intro h
    unfold rateLimitOf
    rw [h]
  have hn2 : kws.lookup rateKey = some none → rateLimitOf kws = 0 := by
    intro h
    unfold rateLimitOf
    rw [h]
  have hn3 : ∀ q, kws.lookup rateKey = some (some q) →
      rateLimitOf kws = if q = 0 then 0 else q := by
    intro q h
    unfold rateLimitOf
    rw [h]
  refine ⟨?_, hn1, hn2, ?_, hnot, ?_, ?_, ?_, ?_⟩
  · rw [hlim]
    constructor
    · intro h
      rcases hl : kws.lookup rateKey with _ | v
      · rw [hn1 hl] at h
        exact absurd h (lt_irrefl 0)
      · cases v with
        | none =>
          rw [hn2 hl] at h
          exact absurd h (lt_irrefl 0)
        | some q =>
          refine ⟨q, rfl, ?_⟩
          rw [hn3 q hl] at h
          by_cases hq : q = 0
          · rw [if_pos hq] at h
            exact absurd h (lt_irrefl 0)
          · rwa [if_neg hq] at h
    · rintro ⟨q, hq, h⟩
      rw [hn3 q hq, if_neg (ne_of_gt h)]
      exact h
  · intro q hq hle
    rw [hn3 q hq]
    by_cases hq0 : q = 0
    · rw [if_pos hq0]
      simp [limiterMade]
    · rw [if_neg hq0]
      have hnl : ¬(0 : Rat) < q := not_lt.mpr hle
      simp [limiterMade, hnl]
  · intro p hp
    exact (List.mem_filter.mp hp).1
  · intro p hp hne
    exact List.mem_filter.mpr ⟨hp, by simpa using hne⟩
  · intro hall
    unfold remainingKwargs
    apply List.filter_eq_self.mpr
    intro p hp
    simpa using hall p hp
  · intro entry hentry
    simp only [callLog, List.mem_flatMap, List.mem_range] at hentry
    obtain ⟨i, _, hin2⟩ := hentry
    rcases htmo : tmo i with _ | _
    · rw [htmo] at hin2
      simp only [Bool.false_eq_true, if_neg] at hin2
      obtain ⟨a, _, hae⟩ := List.mem_map.mp hin2
      rw [← hae]
      exact ⟨rfl, hnot⟩
    · rw [htmo] at hin2
      simp at hin2

/-- Witness for C10: with `rate_limit_per_sec = 3` and one other kwarg, a
limiter is constructed and the forwarded kwargs drop exactly the rate key. -/
theorem claim_C10_rate_limit_kwargs_witness :
    limiterMade (rateLimitOf [(rateKey, some 3), ("x", none)]) = true
    ∧ remainingKwargs [(rateKey, some 3), ("x", none)] = [("x", none)] :=
  ⟨(claim_C10_rate_limit_kwargs ([] : List (List Nat × List Nat))
      (fun it _ _ => Except.ok (some it)) 0 (fun _ => false)
      [(rateKey, some 3), ("x", none)]).1.mpr ⟨3, rfl, by decide⟩,
    by decide⟩

end GeoScope
